import Mathlib

/-!
Verification development for the fibonacci-alerts-dashboard repository.

The definitions below are a shallow embedding of the JavaScript source:
`AssetChart` (src/src/App.js: toHeikinAshi, getLinePrice, sma, the rolling
window, snap candidates, nearestSnap, the hydration step, the drag update
and the alert-evaluation effect) and `Dashboard` (pushAlert).  JavaScript
numbers are modelled as rationals (ℚ); JavaScript `null` as `Option.none`;
bar/level objects as structures.  With a ℚ model every number is finite, so
the source's `Number.isFinite` guards are identically true here.
-/

namespace FibDash

/-- A candlestick bar `{time, open, high, low, close, volume}` as produced by
the kline mapping in App.js.  The `open` field is named `openP` because
`open` is a Lean keyword. -/
structure Bar where
  time : ℤ
  openP : ℚ
  high : ℚ
  low : ℚ
  close : ℚ
  volume : ℚ
deriving DecidableEq, Inhabited

/-- A `{time, value}` point of an overlay line series (VWAP/EMA input to
`sma`). -/
structure TV where
  time : ℤ
  value : ℚ
deriving DecidableEq, Inhabited

/-- A FibLevel as initialised by `initFibLines` in the Dashboard component:
`{id, symbol, ratio, price, enabled, alertEnabled, rsiThreshold, rsiOp,
color}`.  `ratio` and `rsiThreshold` are always numbers in the source
(`initFibLines` sets them and the UI writes numbers), so they are plain ℚ
here; `price` may be `null`, hence `Option ℚ`. -/
structure FibLevel where
  id : String
  symbol : String
  ratio : ℚ
  price : Option ℚ
  enabled : Bool
  alertEnabled : Bool
  rsiThreshold : ℚ
  rsiOp : String
  color : String
deriving DecidableEq, Inhabited

/-- The alert object handed to `onAlert` in App.js:
`{ts: Date.now(), message, delivered}`. -/
structure AlertEvent where
  ts : ℤ
  message : String
  delivered : Bool
deriving DecidableEq, Inhabited

/-- The Heikin-Ashi bar pushed for source bar `b` with synthetic open `o`
(App.js lines 61-68): `c = (O+H+L+C)/4`, high `= max(H, o, c)`, low
`= min(L, o, c)`. -/
def haNext (o : ℚ) (b : Bar) : Bar :=
  let c := (b.openP + b.high + b.low + b.close) / 4
  ⟨b.time, o, max b.high (max o c), min b.low (min o c), c, b.volume⟩

/-- `toHeikinAshi` inner loop for indices `i ≥ 1` (App.js lines 65-69):
`prev` is the previously emitted Heikin-Ashi bar `out[i-1]`, and the
synthetic open is `(prev.open + prev.close) / 2`. -/
def haGo (prev : Bar) : List Bar → List Bar
  | [] => []
  | b :: rest =>
    let nb := haNext ((prev.openP + prev.close) / 2) b
    nb :: haGo nb rest

/-- `toHeikinAshi(bars)` (App.js lines 56-72): `close' = (O+H+L+C)/4`,
`open'[0] = (O+C)/2`, `open'[i] = (out[i-1].open + out[i-1].close)/2`,
`high' = max(H, o, c)`, `low' = min(L, o, c)`. -/
def toHeikinAshi : List Bar → List Bar
  | [] => []
  | b :: rest =>
    let nb := haNext ((b.openP + b.close) / 2) b
    nb :: haGo nb rest

/-- `getLinePrice(ln, range, lo, last)` (App.js lines 74-80).  In the source
the second branch also tests `ln.ratio != null`; every FibLevel carries a
numeric ratio (see `initFibLines`), so that test is identically true in this
model. -/
def getLinePrice (ln : FibLevel) (range lo : Option ℚ) (last : Option Bar) : Option ℚ :=
  match ln.price with
  | some p => some p
  | none =>
    match range, lo with
    | some rg, some l => some (l + ln.ratio * rg)
    | _, _ =>
      match last with
      | some b => some b.close
      | none => none

/-- `bars.slice(-120)`: the last `n` elements of a list. -/
def lastN (n : ℕ) (l : List α) : List α := l.drop (l.length - n)

/-- `look = bars.slice(-120)` (App.js line 497). -/
def lookWindow (bars : List Bar) : List Bar := lastN 120 bars

/-- `hi = look.length ? Math.max(...look.map(b => b.high)) : null`
(App.js line 498). -/
def windowHigh (bars : List Bar) : Option ℚ :=
  ((lookWindow bars).map Bar.high).max?

/-- `lo = look.length ? Math.min(...look.map(b => b.low)) : null`
(App.js line 499). -/
def windowLow (bars : List Bar) : Option ℚ :=
  ((lookWindow bars).map Bar.low).min?

/-- `range = hi != null && lo != null ? hi - lo : null` (App.js line 500). -/
def windowRange (bars : List Bar) : Option ℚ :=
  match windowHigh bars, windowLow bars with
  | some h, some l => some (h - l)
  | _, _ => none

/-- `last = bars.length ? bars[bars.length - 1] : null` (App.js line 496). -/
def lastBar (bars : List Bar) : Option Bar := bars.getLast?

/-- `const w = Math.max(1, Math.floor(window))` (App.js line 84). -/
def effW (window : ℚ) : ℕ := (max 1 ⌊window⌋).toNat

/-- The `sma` main loop (App.js lines 86-93) at index `i` with running
`sum`: `sum += arr[i].value; if (i >= w) sum -= arr[i-w].value;
out.push(i >= w-1 ? {time, sum/w} : arr[i])`. -/
def smaStep (arr : List TV) (w : ℕ) (i : ℕ) (sum : ℚ) : List TV :=
  if h : i < arr.length then
    let s1 := sum + (arr.getD i default).value
    let s2 := if w ≤ i then s1 - (arr.getD (i - w) default).value else s1
    ((if w - 1 ≤ i then ⟨(arr.getD i default).time, s2 / (w : ℚ)⟩
      else arr.getD i default) : TV) :: smaStep arr w (i + 1) s2
  else []
termination_by arr.length - i
decreasing_by simp_wf; omega

/-- `sma(arr, window)` (App.js lines 83-95): `w = max(1, floor(window))`;
`if (w <= 1) return arr.slice()` (a copy, hence the identity here); else the
sliding-window loop. -/
def sma (arr : List TV) (window : ℚ) : List TV :=
  if effW window ≤ 1 then arr else smaStep arr (effW window) 0 0

/-- Value of `arr[j]` (0 outside bounds); used only to state properties. -/
def valAt (arr : List TV) (j : ℕ) : ℚ := (arr.getD j default).value

/-- Sum of the source values at indices `[i+1-w, i]`; for `i ≥ w-1` these
are exactly the `w` most recent inputs ending at `i`.  Used only to state
properties. -/
def recentSum (arr : List TV) (w i : ℕ) : ℚ :=
  ∑ j in Finset.Ico (i + 1 - w) (i + 1), valAt arr j

/-- Sum of the source values at indices `[i-w, i-1]` (ℕ-truncated): the
running `sum` held by the `sma` loop when entering iteration `i`.  Used only
to state the loop invariant. -/
def preSum (arr : List TV) (w i : ℕ) : ℚ :=
  ∑ j in Finset.Ico (i - w) i, valAt arr j

/-- Hydration of one level (App.js lines 522-528): if `ln.price == null`,
compute `p = getLinePrice(ln, range, lo, last)` and return
`{...ln, price: p}` when `p != null && Number.isFinite(p)` (finiteness is
automatic over ℚ), else return `ln` unchanged. -/
def hydrateLine (ln : FibLevel) (range lo : Option ℚ) (last : Option Bar) : FibLevel :=
  match ln.price with
  | none =>
    match getLinePrice ln range lo last with
    | some p => { ln with price := some p }
    | none => ln
  | some _ => ln

/-- The hydration step of the fib-lines effect (App.js lines 520-533):
guarded by `fibLines.length && (range != null || last != null)`; maps
`hydrateLine` over the levels; invokes `onFibLinesUpdate` (the returned
Bool) exactly when some level's price differs from the stored one
(`filled.some((ln, i) => ln.price !== fibLines[i].price)`). -/
def hydrate (fibLines : List FibLevel) (range lo : Option ℚ) (last : Option Bar) :
    List FibLevel × Bool :=
  if fibLines.length ≠ 0 ∧ (range ≠ none ∨ last ≠ none) then
    let filled := fibLines.map (fun ln => hydrateLine ln range lo last)
    (filled, (filled.zip fibLines).any (fun pr => pr.1.price ≠ pr.2.price))
  else (fibLines, false)

/-- A snap candidate `{type, price}` (App.js lines 503-506).  `type` is
`"ratio"`, `"high"` or `"low"`, or `none` for the raw-price fallback object
`{price, type: null}`; the decorative `r` field on ratio candidates is not
modelled (nothing reads it besides the tooltip text). -/
structure SnapCandidate where
  type : Option String
  price : ℚ
deriving DecidableEq, Inhabited

/-- `ratios` (App.js line 503). -/
def snapRatios : List ℚ :=
  [-1, -(618/1000), -(272/1000), 236/1000, 382/1000, 1/2, 618/1000, 786/1000,
   1272/1000, 1618/1000, 2]

/-- Snap-candidate construction (App.js lines 504-506): ratio-projected
prices `lo + r * range` for each ratio when the window exists, plus every
bar's high and low in the 120-bar window.  In the component `range` is
non-null exactly when `lo` is (both derive from the same window), hence the
paired match. -/
def snapCandidates (range lo : Option ℚ) (look : List Bar) (ratios : List ℚ) :
    List SnapCandidate :=
  (match range, lo with
   | some rg, some l => ratios.map (fun r => ⟨some "ratio", l + r * rg⟩)
   | _, _ => []) ++
  look.flatMap (fun b => [⟨some "high", b.high⟩, ⟨some "low", b.low⟩])

/-- One iteration of the `nearestSnap` loop (App.js lines 508-512): the
accumulator holds `(best, dmin)`, with `none` standing for the initial
`best = null, dmin = Infinity`. -/
def nsStep (price : ℚ) (acc : Option (SnapCandidate × ℚ)) (s : SnapCandidate) :
    Option (SnapCandidate × ℚ) :=
  match acc with
  | none => some (s, |s.price - price|)
  | some (b, dmin) =>
    if |s.price - price| < dmin then some (s, |s.price - price|) else some (b, dmin)

/-- `nearestSnap(price)` (App.js lines 507-514): linear scan for the
candidate with the strictly smallest `Math.abs(s.price - price)` (first of
equal distances wins); falls back to `{price, type: null}` when there are
no candidates. -/
def nearestSnap (snaps : List SnapCandidate) (price : ℚ) : SnapCandidate :=
  match snaps.foldl (nsStep price) none with
  | some (b, _) => b
  | none => ⟨none, price⟩

/-- The state write of `onShieldMove` (App.js line 624): set the dragged
level's price to the snapped price, leave every other level alone. -/
def dragUpdate (fibLines : List FibLevel) (id : String) (snapped : ℚ) : List FibLevel :=
  fibLines.map (fun l => if l.id = id then { l with price := some snapped } else l)

/-- `onShieldMove` price path (App.js lines 599-626): snap the raw pointer
price with `nearestSnap`, then write it into the dragged level. -/
def onShieldMoveUpdate (fibLines : List FibLevel) (id : String)
    (snaps : List SnapCandidate) (raw : ℚ) : List FibLevel :=
  dragUpdate fibLines id (nearestSnap snaps raw).price

/-- `pushAlert` in the Dashboard component (part_000 lines 223-226):
`setAlerts(prev => [{...a}, ...prev].slice(0, 200))`. -/
def pushAlert (a : AlertEvent) (prev : List AlertEvent) : List AlertEvent :=
  (a :: prev).take 200

/-- `const op = ln.rsiOp || ">="` (App.js line 769): the empty string is
falsy in JavaScript. -/
def effOp (s : String) : String := if s = "" then ">=" else s

/-- The RSI gate (App.js line 770):
`op === ">=" ? rsiVal >= threshold : rsiVal <= threshold`. -/
def rsiGate (op : String) (rsiVal thr : ℚ) : Bool :=
  if effOp op = ">=" then decide (thr ≤ rsiVal) else decide (rsiVal ≤ thr)

/-- Crossing detection (App.js lines 764-766):
`wasBelow = prevClose != null ? prevClose < ln.price : null;
isBelow = price < ln.price; crossed = wasBelow != null && wasBelow !== isBelow`. -/
def crossedAt (prevClose : Option ℚ) (price lp : ℚ) : Bool :=
  match prevClose with
  | none => false
  | some pc => decide (pc < lp) != decide (price < lp)

/-- Per-level body of the alert-evaluation effect (App.js lines 760-771):
skip when `!ln.enabled || ln.price == null || !ln.alertEnabled`, or when
`rsiVal == null` (the `Number.isFinite(ln.rsiThreshold)` test is always
true over ℚ); otherwise fire exactly when a crossing is detected and the
RSI gate passes.  Returns whether an AlertEvent is emitted for this level
on this tick. -/
def alertFires (ln : FibLevel) (prevClose : Option ℚ) (price : ℚ)
    (rsiVal : Option ℚ) : Bool :=
  if !ln.enabled || ln.price.isNone || !ln.alertEnabled then false
  else
    match rsiVal, ln.price with
    | none, _ => false
    | _, none => false
    | some r, some lp =>
      if crossedAt prevClose price lp then rsiGate ln.rsiOp r ln.rsiThreshold
      else false

/-- `prevClose = bars.length > 1 ? bars[bars.length - 2].close : null`
(App.js line 758). -/
def prevCloseOf (bars : List Bar) : Option ℚ :=
  if 1 < bars.length then some ((bars.getD (bars.length - 2) default).close)
  else none

/-- One run of the alert-evaluation effect for one level (App.js lines
754-791): the effect re-runs whenever `lastPrice` or `bars` changes, i.e.
on every live kline message, including same-bucket updates of the
in-progress bar. -/
def evalTick (bars : List Bar) (lastPrice : ℚ) (rsiVal : Option ℚ)
    (ln : FibLevel) : Bool :=
  alertFires ln (prevCloseOf bars) lastPrice rsiVal

/-- The websocket bar merge (App.js lines 403-405): a kline for the same
time bucket replaces the in-progress last bar, otherwise the bar is
appended. -/
def applyKline (prev : List Bar) (bar : Bar) : List Bar :=
  match prev.getLast? with
  | some lb => if lb.time = bar.time then prev.dropLast ++ [bar] else prev ++ [bar]
  | none => prev ++ [bar]

/-- Outcome of the `fetch("/alert", ...)` call (App.js lines 778-787):
either the HTTP exchange completed (`success ok`, where `ok = res.ok`), or
the transport threw (`failure`). -/
inductive FetchOutcome where
  | success (ok : Bool)
  | failure
deriving DecidableEq

/-- The `delivered` flag recorded by the alert effect (App.js lines
776-787): `delivered = res.ok` when the POST completed, `delivered = false`
when it threw. -/
def deliveredFlag : FetchOutcome → Bool
  | .success ok => ok
  | .failure => false

/-- The full emission path (App.js line 788 feeding part_000 lines
223-226): build the AlertEvent with the recorded `delivered` flag and push
it onto the alerts log — unconditionally, whatever the delivery outcome. -/
def emitAlert (ts : ℤ) (message : String) (outcome : FetchOutcome)
    (log : List AlertEvent) : List AlertEvent :=
  pushAlert ⟨ts, message, deliveredFlag outcome⟩ log

/-- Evaluation ticks of `crossedAt` over a close series: tick `i` compares
`closes[i-1]` (none for `i = 0`) with `closes[i]`.  Used only to state the
spec's `[110, 108, 112]` example. -/
def crossTicks (closes : List ℚ) (lp : ℚ) : List Bool :=
  (List.range closes.length).map fun i =>
    crossedAt (if i = 0 then none else some (closes.getD (i - 1) 0))
      (closes.getD i 0) lp

/-! ## Theorems -/

lemma crossedAt_some_iff (pc cur lp : ℚ) :
    crossedAt (some pc) cur lp = true ↔ ((pc < lp) ↔ ¬(cur < lp)) := by
  by_cases ha : pc < lp <;> by_cases hb : cur < lp <;>
    simp [crossedAt, ha, hb]

lemma alertFires_of_not_crossed (ln : FibLevel) (lp : ℚ) (prev : Option ℚ)
    (cur : ℚ) (rsiVal : Option ℚ) (hp : ln.price = some lp)
    (hnc : crossedAt prev cur lp = false) :
    alertFires ln prev cur rsiVal = false := by
  unfold alertFires
  cases hcond : (!ln.enabled || ln.price.isNone || !ln.alertEnabled)
  · simp only [Bool.false_eq_true, if_neg]
    cases rsiVal with
    | none => simp [hp]
    | some r => simp [hp, hnc]
  · simp

/-- Claim C1: at-most-once per crossing fails on the code.  The alert
evaluator (App.js lines 754-791) is stateless: on an evaluation tick it
compares the previous completed close `bars[len-2].close` with the current
close.  After a crossing fires (completed close 110, in-progress close 108,
level 109, RSI gate passing), a same-bucket live update of the in-progress
bar (close 107) leaves the previous completed close unchanged, so
`crossed` recomputes `true` and a second AlertEvent is emitted for the very
same crossing, even though price never re-crossed the level (both 108 and
107 are below 109).  This theorem exhibits the double emission. -/
theorem C1_same_bucket_retrigger :
    evalTick
        ([⟨100, 110, 111, 109, 110, 1⟩, ⟨200, 110, 110, 108, 108, 1⟩] : List Bar)
        108 (some 60)
        ⟨"XRPUSD-fib-0_5", "XRPUSD", 1/2, some 109, true, true, 50, ">=", "#ffffff"⟩
      = true
    ∧ applyKline
        ([⟨100, 110, 111, 109, 110, 1⟩, ⟨200, 110, 110, 108, 108, 1⟩] : List Bar)
        ⟨200, 110, 110, 107, 107, 1⟩
      = [⟨100, 110, 111, 109, 110, 1⟩, ⟨200, 110, 110, 107, 107, 1⟩]
    ∧ prevCloseOf [⟨100, 110, 111, 109, 110, 1⟩, ⟨200, 110, 110, 107, 107, 1⟩]
      = some 110
    ∧ ((108:ℚ) < 109 ∧ (107:ℚ) < 109)
    ∧ evalTick
        ([⟨100, 110, 111, 109, 110, 1⟩, ⟨200, 110, 110, 107, 107, 1⟩] : List Bar)
        107 (some 60)
        ⟨"XRPUSD-fib-0_5", "XRPUSD", 1/2, some 109, true, true, 50, ">=", "#ffffff"⟩
      = true := by
  with_unfolding_all decide

/-- Claim C2: crossing detection is strictly edge-triggered.  `crossedAt`
(App.js lines 764-766) returns true iff a previous close exists and
`(previousClose < level.price)` differs from `(currentClose < level.price)`;
it never fires with no previous close, a non-crossing never lets the
evaluator emit, and on the close series `[110, 108, 112]` with level price
109 exactly the bar1→bar2 and bar2→bar3 ticks fire. -/
theorem C2_edge_triggered (prev : Option ℚ) (cur lp : ℚ) :
    (crossedAt prev cur lp = true ↔
      ∃ pc, prev = some pc ∧ ((pc < lp) ↔ ¬(cur < lp)))
    ∧ crossedAt none cur lp = false
    ∧ (∀ (ln : FibLevel) (rsiVal : Option ℚ), ln.price = some lp →
        crossedAt prev cur lp = false →
        alertFires ln prev cur rsiVal = false)
    ∧ crossTicks [110, 108, 112] 109 = [false, true, true] := by
  refine ⟨?_, rfl, ?_, by decide⟩
  · cases prev with
    | none => simp [crossedAt]
    | some pc => simp [crossedAt_some_iff]
  · intro ln rsiVal hp hnc
    exact alertFires_of_not_crossed ln lp prev cur rsiVal hp hnc

/-- Witness for C2 at a concrete input: previous close 110, current close
108, level price 109 — the characterisation yields a firing crossing. -/
theorem C2_edge_triggered_witness : crossedAt (some 110) 108 109 = true := by
  have h := (C2_edge_triggered (some 110) 108 109).1
  exact h.mpr ⟨110, rfl, by norm_num⟩

/-- Claim C3: the RSI gate.  Given a detected crossing on an enabled,
alert-enabled level, an alert is emitted iff the RSI condition holds:
operator `>=` passes exactly when `rsiValue >= rsiThreshold`, operator `<=`
exactly when `rsiValue <= rsiThreshold` (App.js lines 769-770); and with
operator `>=` and threshold 60 the gate passes for 65 and fails for 55. -/
theorem C3_rsi_gate (ln : FibLevel) (lp r : ℚ) (prev : Option ℚ) (cur : ℚ)
    (hen : ln.enabled = true) (hal : ln.alertEnabled = true)
    (hp : ln.price = some lp) (hcross : crossedAt prev cur lp = true) :
    (ln.rsiOp = ">=" →
      (alertFires ln prev cur (some r) = true ↔ ln.rsiThreshold ≤ r))
    ∧ (ln.rsiOp = "<=" →
      (alertFires ln prev cur (some r) = true ↔ r ≤ ln.rsiThreshold))
    ∧ (rsiGate ">=" 65 60 = true ∧ rsiGate ">=" 55 60 = false) := by
  have hfires : alertFires ln prev cur (some r) =
      rsiGate ln.rsiOp r ln.rsiThreshold := by
    unfold alertFires
    simp [hen, hal, hp, hcross]
  refine ⟨?_, ?_, by decide, by decide⟩
  · intro hop
    rw [hfires]
    simp [rsiGate, effOp, hop]
  · intro hop
    rw [hfires]
    simp [rsiGate, effOp, hop]

/-- Witness for C3: a concrete enabled, alert-enabled level with price 109
and gate `RSI >= 60`, a crossing from 110 down to 108, RSI 65 — the alert
fires. -/
theorem C3_rsi_gate_witness :
    alertFires ⟨"id", "XRPUSD", 1, some 109, true, true, 60, ">=", "#ffffff"⟩
      (some 110) 108 (some 65) = true := by
  have h := C3_rsi_gate ⟨"id", "XRPUSD", 1, some 109, true, true, 60, ">=", "#ffffff"⟩
    109 65 (some 110) 108 rfl rfl rfl (by decide)
  exact (h.1 rfl).mpr (by norm_num)

/-- Claim C7: the alerts log bound and order (part_000 lines 223-226).
`pushAlert` prepends the new event, keeps at most 200 entries, and on a
full 200-entry log evicts exactly the oldest (last) entry, leaving all
other retained entries unchanged. -/
theorem C7_alert_log (a : AlertEvent) (prev : List AlertEvent) :
    pushAlert a prev = a :: prev.take 199
    ∧ (pushAlert a prev).length ≤ 200
    ∧ (pushAlert a prev).head? = some a
    ∧ (prev.length = 200 →
        pushAlert a prev = a :: prev.dropLast ∧ (pushAlert a prev).length = 200) := by
  have hdef : pushAlert a prev = a :: prev.take 199 := by
    simp [pushAlert, List.take_succ_cons]
  refine ⟨hdef, ?_, by rw [hdef]; rfl, ?_⟩
  · rw [hdef]
    simp only [List.length_cons, List.length_take]
    omega
  · intro hlen
    have hdrop : prev.take 199 = prev.dropLast := by
      rw [List.dropLast_eq_take, hlen]
    constructor
    · rw [hdef, hdrop]
    · rw [hdef]
      simp only [List.length_cons, List.length_take, hlen]
      omega

/-- Witness for C7 at a concrete input: pushing onto a one-entry log keeps
both entries, newest first. -/
theorem C7_alert_log_witness :
    pushAlert ⟨5, "m", true⟩ [⟨1, "a", false⟩] =
      ⟨5, "m", true⟩ :: ([⟨1, "a", false⟩] : List AlertEvent).take 199 :=
  (C7_alert_log ⟨5, "m", true⟩ [⟨1, "a", false⟩]).1

/-- Claim C8: delivery-status semantics.  The recorded `delivered` flag is
true iff the POST to `/alert` completed with an ok HTTP response
(`deliveredFlag`, App.js lines 776-787); a non-ok response or a transport
failure records false; and the AlertEvent is appended to the visible log
in every case, regardless of the outcome. -/
theorem C8_delivery_status :
    (∀ oc, deliveredFlag oc = true ↔ oc = FetchOutcome.success true)
    ∧ (∀ (ts : ℤ) (msg : String) (oc : FetchOutcome) (log : List AlertEvent),
        (emitAlert ts msg oc log).head? = some ⟨ts, msg, deliveredFlag oc⟩) := by
  constructor
  · intro oc
    cases oc with
    | success ok => cases ok <;> simp [deliveredFlag]
    | failure => simp [deliveredFlag]
  · intro ts msg oc log
    simp [emitAlert, pushAlert, List.take_succ_cons]

/-- Witness for C8 at concrete inputs: a transport failure records
`delivered = false` and the event still lands at the head of the log. -/
theorem C8_delivery_status_witness :
    (deliveredFlag FetchOutcome.failure = true ↔
      FetchOutcome.failure = FetchOutcome.success true)
    ∧ (emitAlert 7 "msg" FetchOutcome.failure []).head? =
      some ⟨7, "msg", deliveredFlag FetchOutcome.failure⟩ :=
  ⟨C8_delivery_status.1 FetchOutcome.failure,
   C8_delivery_status.2 7 "msg" FetchOutcome.failure []⟩

lemma lookWindow_ne_nil {bars : List Bar} (h : bars ≠ []) : lookWindow bars ≠ [] := by
  have hpos : 0 < bars.length := List.length_pos.mpr h
  simp only [lookWindow, lastN, ne_eq, List.drop_eq_nil_iff]
  omega

lemma lookWindow_nil : lookWindow ([] : List Bar) = [] := rfl

lemma windowLow_of_ne_nil {bars : List Bar} (h : bars ≠ []) :
    ∃ l, windowLow bars = some l := by
  obtain ⟨b, t, hbt⟩ := List.exists_cons_of_ne_nil (lookWindow_ne_nil h)
  refine ⟨((t.map Bar.low).foldl min b.low), ?_⟩
  simp [windowLow, hbt, List.min?]

lemma windowHigh_of_ne_nil {bars : List Bar} (h : bars ≠ []) :
    ∃ hi, windowHigh bars = some hi := by
  obtain ⟨b, t, hbt⟩ := List.exists_cons_of_ne_nil (lookWindow_ne_nil h)
  refine ⟨((t.map Bar.high).foldl max b.high), ?_⟩
  simp [windowHigh, hbt, List.max?]

lemma windowRange_of_ne_nil {bars : List Bar} (h : bars ≠ []) :
    ∃ rg, windowRange bars = some rg := by
  obtain ⟨hi, hh⟩ := windowHigh_of_ne_nil h
  obtain ⟨l, hl⟩ := windowLow_of_ne_nil h
  refine ⟨hi - l, ?_⟩
  unfold windowRange
  rw [hh, hl]

lemma windowRange_nil : windowRange ([] : List Bar) = none := rfl

lemma windowLow_of_range {bars : List Bar} {rg : ℚ}
    (h : windowRange bars = some rg) : ∃ l, windowLow bars = some l := by
  unfold windowRange at h
  cases hh : windowHigh bars with
  | none => rw [hh] at h; exact absurd h (by simp)
  | some hi =>
    cases hl : windowLow bars with
    | none => rw [hh, hl] at h; exact absurd h (by simp)
    | some l => exact ⟨l, rfl⟩

/-- Claim C4: the Price-Level Resolver contract (`getLinePrice`, App.js
lines 74-80, with the rolling 120-bar window of lines 496-500).  An
explicit price is returned unchanged; otherwise, when the window exists
(`range != null`, which forces `lo != null`), the resolver returns
`low + ratio * range`; otherwise it returns the last bar's close; and it
returns null exactly when there are no bars and no explicit price. -/
theorem C4_resolver_contract (bars : List Bar) (ln : FibLevel) :
    (∀ p, ln.price = some p →
      getLinePrice ln (windowRange bars) (windowLow bars) (lastBar bars) = some p)
    ∧ (∀ rg, ln.price = none → windowRange bars = some rg →
        ∃ l, windowLow bars = some l ∧
          getLinePrice ln (windowRange bars) (windowLow bars) (lastBar bars) =
            some (l + ln.ratio * rg))
    ∧ (ln.price = none → windowRange bars = none →
        getLinePrice ln (windowRange bars) (windowLow bars) (lastBar bars) =
          (lastBar bars).map Bar.close)
    ∧ (getLinePrice ln (windowRange bars) (windowLow bars) (lastBar bars) = none ↔
        bars = [] ∧ ln.price = none) := by
  refine ⟨?_, ?_, ?_, ?_⟩
  · intro p hp
    simp [getLinePrice, hp]
  · intro rg hp hrg
    obtain ⟨l, hl⟩ := windowLow_of_range hrg
    exact ⟨l, hl, by simp [getLinePrice, hp, hrg, hl]⟩
  · intro hp hrg
    cases hlast : lastBar bars <;> simp [getLinePrice, hp, hrg, hlast]
  · constructor
    · intro hres
      cases hp : ln.price with
      | some p => simp [getLinePrice, hp] at hres
      | none =>
        refine ⟨?_, rfl⟩
        by_contra hne
        obtain ⟨rg, hrg⟩ := windowRange_of_ne_nil hne
        obtain ⟨l, hl⟩ := windowLow_of_range hrg
        simp [getLinePrice, hp, hrg, hl] at hres
    · rintro ⟨hnil, hp⟩
      subst hnil
      simp [getLinePrice, hp, windowRange_nil, lastBar]

/-- Witness for C4 at concrete inputs: one bar (high 120, low 100, close
110) and a level with no explicit price and ratio 1/2 resolves to
`100 + (1/2) * 20`; a level with explicit price 42 keeps it. -/
theorem C4_resolver_contract_witness :
    getLinePrice ⟨"a", "S", 1/2, some 42, true, false, 50, ">=", "#ffffff"⟩
        (windowRange [⟨0, 105, 120, 100, 110, 1⟩])
        (windowLow [⟨0, 105, 120, 100, 110, 1⟩])
        (lastBar [⟨0, 105, 120, 100, 110, 1⟩]) = some 42
    ∧ getLinePrice ⟨"a", "S", 1/2, none, true, false, 50, ">=", "#ffffff"⟩
        (windowRange [⟨0, 105, 120, 100, 110, 1⟩])
        (windowLow [⟨0, 105, 120, 100, 110, 1⟩])
        (lastBar [⟨0, 105, 120, 100, 110, 1⟩]) =
        some ((100 : ℚ) + (1/2 : ℚ) * 20) := by
  constructor
  · exact (C4_resolver_contract [⟨0, 105, 120, 100, 110, 1⟩]
      ⟨"a", "S", 1/2, some 42, true, false, 50, ">=", "#ffffff"⟩).1 42 rfl
  · obtain ⟨l, hl, heq⟩ := (C4_resolver_contract [⟨0, 105, 120, 100, 110, 1⟩]
      ⟨"a", "S", 1/2, none, true, false, 50, ">=", "#ffffff"⟩).2.1 20 rfl
      (by with_unfolding_all rfl)
    have h100 : windowLow [(⟨0, 105, 120, 100, 110, 1⟩ : Bar)] = some 100 := by
      with_unfolding_all rfl
    rw [hl] at h100
    rw [Option.some.inj h100] at heq
    exact heq

lemma hydrateLine_of_some {ln : FibLevel} {p : ℚ} (hp : ln.price = some p)
    (range lo : Option ℚ) (last : Option Bar) :
    hydrateLine ln range lo last = ln := by
  unfold hydrateLine
  rw [hp]

lemma hydrateLine_cases (ln : FibLevel) (range lo : Option ℚ) (last : Option Bar) :
    hydrateLine ln range lo last = ln ∨
      (ln.price = none ∧ ∃ p, getLinePrice ln range lo last = some p ∧
        hydrateLine ln range lo last = { ln with price := some p }) := by
  unfold hydrateLine
  cases hp : ln.price with
  | some _ => exact Or.inl rfl
  | none =>
    cases hg : getLinePrice ln range lo last with
    | none => exact Or.inl rfl
    | some p => exact Or.inr ⟨rfl, p, rfl, rfl⟩

lemma getD_map_of_lt {α β : Type} [Inhabited α] [Inhabited β] (f : α → β)
    (l : List α) (i : ℕ) (h : i < l.length) :
    (l.map f).getD i default = f (l.getD i default) := by
  rw [List.getD_eq_getElem _ _ (by simpa using h), List.getD_eq_getElem _ _ h,
    List.getElem_map]

/-- Claim C5: hydration preserves overrides (App.js lines 520-533).  The
hydration step keeps the list length, leaves every level with a non-null
stored price entirely unchanged, rewrites a level only when its stored
price is null and the resolver computes a non-null (finite — automatic
over ℚ) price, and signals the single upstream `onFibLinesUpdate` call
exactly when the guard holds and some level's price actually changed. -/
theorem C5_hydration (fibLines : List FibLevel) (range lo : Option ℚ)
    (last : Option Bar) :
    ((hydrate fibLines range lo last).1).length = fibLines.length
    ∧ (∀ i, i < fibLines.length → (fibLines.getD i default).price ≠ none →
        ((hydrate fibLines range lo last).1).getD i default = fibLines.getD i default)
    ∧ (∀ i, i < fibLines.length →
        ((hydrate fibLines range lo last).1).getD i default ≠ fibLines.getD i default →
          (fibLines.getD i default).price = none ∧
          ∃ p, getLinePrice (fibLines.getD i default) range lo last = some p ∧
            ((hydrate fibLines range lo last).1).getD i default =
              { fibLines.getD i default with price := some p })
    ∧ ((hydrate fibLines range lo last).2 = true ↔
        (fibLines.length ≠ 0 ∧ (range ≠ none ∨ last ≠ none)) ∧
        ∃ i, i < fibLines.length ∧
          (((hydrate fibLines range lo last).1).getD i default).price ≠
            (fibLines.getD i default).price) := by
  by_cases hg : fibLines.length ≠ 0 ∧ (range ≠ none ∨ last ≠ none)
  · have hfst : (hydrate fibLines range lo last).1 =
        fibLines.map (fun ln => hydrateLine ln range lo last) := by
      unfold hydrate
      rw [if_pos hg]
    have hsnd : (hydrate fibLines range lo last).2 =
        ((fibLines.map (fun ln => hydrateLine ln range lo last)).zip fibLines).any
          (fun pr => pr.1.price ≠ pr.2.price) := by
      unfold hydrate
      rw [if_pos hg]
    have hlen : ((hydrate fibLines range lo last).1).length = fibLines.length := by
      rw [hfst, List.length_map]
    have hget : ∀ i, i < fibLines.length →
        ((hydrate fibLines range lo last).1).getD i default =
          hydrateLine (fibLines.getD i default) range lo last := by
      intro i hi
      rw [hfst, getD_map_of_lt _ _ _ hi]
    refine ⟨hlen, ?_, ?_, ?_⟩
    · intro i hi hne
      rw [hget i hi]
      obtain ⟨p, hp⟩ := Option.ne_none_iff_exists'.mp hne
      exact hydrateLine_of_some hp range lo last
    · intro i hi hne
      rw [hget i hi] at hne ⊢
      rcases hydrateLine_cases (fibLines.getD i default) range lo last with heq | hr
      · exact absurd heq hne
      · exact hr
    · rw [hsnd]
      rw [List.any_eq_true]
      constructor
      · rintro ⟨pr, hmem, hpr⟩
        obtain ⟨i, hilt, hi⟩ := List.mem_iff_getElem.mp hmem
        have hizip : i < fibLines.length := by
          simpa [List.length_zip] using hilt
        rw [List.getElem_zip] at hi
        simp only [decide_eq_true_eq] at hpr
        rw [← hi] at hpr
        simp only [List.getElem_map] at hpr
        rw [← List.getD_eq_getElem fibLines default hizip] at hpr
        refine ⟨hg, i, hizip, ?_⟩
        rw [hget i hizip]
        exact hpr
      · rintro ⟨-, i, hi, hne⟩
        have hizip : i < (((fibLines.map
            (fun ln => hydrateLine ln range lo last)).zip fibLines)).length := by
          simpa [List.length_zip] using hi
        refine ⟨(((fibLines.map (fun ln => hydrateLine ln range lo last)).zip
            fibLines)).getD i default, ?_, ?_⟩
        · rw [List.getD_eq_getElem _ _ hizip]
          exact List.getElem_mem hizip
        · rw [List.getD_eq_getElem _ _ hizip, List.getElem_zip]
          simp only [decide_eq_true_eq, List.getElem_map]
          rw [← List.getD_eq_getElem fibLines default hi]
          rw [hget i hi] at hne
          exact hne
  · have heq : hydrate fibLines range lo last = (fibLines, false) := by
      unfold hydrate
      rw [if_neg hg]
    rw [heq]
    refine ⟨rfl, fun i hi hne => rfl, fun i hi hne => absurd rfl hne, ?_⟩
    simp only [Bool.false_eq_true, false_iff]
    rintro ⟨hgg, -⟩
    exact hg hgg

/-- Witness for C5 at concrete inputs: a level with explicit price 42 is
untouched by hydration. -/
theorem C5_hydration_witness :
    ((hydrate [⟨"a", "S", 1, some 42, true, false, 50, ">=", "#ffffff"⟩]
        (some 20) (some 100) none).1).getD 0 default =
      ([(⟨"a", "S", 1, some 42, true, false, 50, ">=", "#ffffff"⟩ : FibLevel)]).getD
        0 default := by
  have h := C5_hydration [⟨"a", "S", 1, some 42, true, false, 50, ">=", "#ffffff"⟩]
    (some 20) (some 100) none
  exact h.2.1 0 (by decide) (by decide)

lemma nsFold_spec (p : ℚ) (l : List SnapCandidate) :
    ∀ b : SnapCandidate,
      ∃ b2, l.foldl (nsStep p) (some (b, |b.price - p|)) = some (b2, |b2.price - p|)
        ∧ (b2 = b ∨ b2 ∈ l)
        ∧ |b2.price - p| ≤ |b.price - p|
        ∧ ∀ s ∈ l, |b2.price - p| ≤ |s.price - p| := by
  induction l with
  | nil =>
    intro b
    exact ⟨b, rfl, Or.inl rfl, le_refl _, by simp⟩
  | cons s t ih =>
    intro b
    by_cases hlt : |s.price - p| < |b.price - p|
    · have hstep : nsStep p (some (b, |b.price - p|)) s = some (s, |s.price - p|) := by
        have hred : nsStep p (some (b, |b.price - p|)) s =
            if |s.price - p| < |b.price - p| then some (s, |s.price - p|)
            else some (b, |b.price - p|) := rfl
        rw [hred, if_pos hlt]
      obtain ⟨b2, hfold, hmem, hle, hmin⟩ := ih s
      refine ⟨b2, ?_, ?_, le_trans hle (le_of_lt hlt), ?_⟩
      · rw [List.foldl_cons, hstep]
        exact hfold
      · rcases hmem with h | h
        · exact Or.inr (h ▸ List.mem_cons_self _ _)
        · exact Or.inr (List.mem_cons_of_mem _ h)
      · intro x hx
        rcases List.mem_cons.mp hx with h | h
        · rw [h]
          exact hle
        · exact hmin x h
    · have hstep : nsStep p (some (b, |b.price - p|)) s = some (b, |b.price - p|) := by
        have hred : nsStep p (some (b, |b.price - p|)) s =
            if |s.price - p| < |b.price - p| then some (s, |s.price - p|)
            else some (b, |b.price - p|) := rfl
        rw [hred, if_neg hlt]
      obtain ⟨b2, hfold, hmem, hle, hmin⟩ := ih b
      refine ⟨b2, ?_, ?_, hle, ?_⟩
      · rw [List.foldl_cons, hstep]
        exact hfold
      · rcases hmem with h | h
        · exact Or.inl h
        · exact Or.inr (List.mem_cons_of_mem _ h)
      · intro x hx
        rcases List.mem_cons.mp hx with h | h
        · rw [h]
          exact le_trans hle (not_lt.mp hlt)
        · exact hmin x h

lemma nearestSnap_spec (snaps : List SnapCandidate) (p : ℚ) (h : snaps ≠ []) :
    nearestSnap snaps p ∈ snaps ∧
      ∀ s ∈ snaps, |(nearestSnap snaps p).price - p| ≤ |s.price - p| := by
  obtain ⟨b, t, rfl⟩ := List.exists_cons_of_ne_nil h
  obtain ⟨b2, hfold, hmem, hle, hmin⟩ := nsFold_spec p t b
  have hns : nearestSnap (b :: t) p = b2 := by
    unfold nearestSnap
    rw [List.foldl_cons]
    have hstep0 : nsStep p none b = some (b, |b.price - p|) := rfl
    rw [hstep0, hfold]
  rw [hns]
  constructor
  · rcases hmem with h2 | h2
    · rw [h2]
      exact List.mem_cons_self _ _
    · exact List.mem_cons_of_mem _ h2
  · intro s hs
    rcases List.mem_cons.mp hs with h2 | h2
    · rw [h2]
      exact hle
    · exact hmin s h2

/-- Claim C6: unconditional nearest-candidate snapping.  For every
non-empty snap-candidate set, `nearestSnap` (App.js lines 507-514) returns
a candidate at minimal absolute distance to the raw price — with no
maximum-distance threshold — and the drag update (`onShieldMove`, line
624) writes exactly that snapped price into the dragged level, leaving
other levels alone; on candidates `{100, 105, 110}` with raw price 107 the
snap resolves to 105. -/
theorem C6_nearest_snapping (snaps : List SnapCandidate) (p : ℚ)
    (hne : snaps ≠ []) :
    (nearestSnap snaps p ∈ snaps
      ∧ ∀ s ∈ snaps, |(nearestSnap snaps p).price - p| ≤ |s.price - p|)
    ∧ (∀ (fibLines : List FibLevel) (lid : String) (i : ℕ), i < fibLines.length →
        (onShieldMoveUpdate fibLines lid snaps p).getD i default =
          (if (fibLines.getD i default).id = lid then
            { fibLines.getD i default with price := some (nearestSnap snaps p).price }
          else fibLines.getD i default))
    ∧ nearestSnap [⟨some "ratio", 100⟩, ⟨some "high", 105⟩, ⟨some "low", 110⟩] 107 =
        ⟨some "high", 105⟩ := by
  refine ⟨nearestSnap_spec snaps p hne, ?_, by with_unfolding_all rfl⟩
  intro fibLines lid i hi
  unfold onShieldMoveUpdate dragUpdate
  rw [getD_map_of_lt _ _ _ hi]

/-- Witness for C6: the non-emptiness hypothesis discharged on the
concrete candidate set `{100, 105, 110}` with raw price 107. -/
theorem C6_nearest_snapping_witness :
    nearestSnap [⟨some "ratio", 100⟩, ⟨some "high", 105⟩, ⟨some "low", 110⟩] 107 =
      ⟨some "high", 105⟩ :=
  (C6_nearest_snapping
    [⟨some "ratio", 100⟩, ⟨some "high", 105⟩, ⟨some "low", 110⟩] 107
    (by decide)).2.2

lemma haGo_cons (prev b : Bar) (t : List Bar) :
    haGo prev (b :: t) =
      haNext ((prev.openP + prev.close) / 2) b ::
        haGo (haNext ((prev.openP + prev.close) / 2) b) t := rfl

lemma toHeikinAshi_cons (b : Bar) (t : List Bar) :
    toHeikinAshi (b :: t) =
      haNext ((b.openP + b.close) / 2) b ::
        haGo (haNext ((b.openP + b.close) / 2) b) t := rfl

lemma haNext_time (o : ℚ) (b : Bar) : (haNext o b).time = b.time := rfl

lemma haNext_openP (o : ℚ) (b : Bar) : (haNext o b).openP = o := rfl

lemma haNext_close (o : ℚ) (b : Bar) :
    (haNext o b).close = (b.openP + b.high + b.low + b.close) / 4 := rfl

lemma haNext_high (o : ℚ) (b : Bar) :
    (haNext o b).high = max b.high (max (haNext o b).openP (haNext o b).close) := rfl

lemma haNext_low (o : ℚ) (b : Bar) :
    (haNext o b).low = min b.low (min (haNext o b).openP (haNext o b).close) := rfl

lemma haGo_length (prev : Bar) (l : List Bar) : (haGo prev l).length = l.length := by
  induction l generalizing prev with
  | nil => rfl
  | cons b t ih =>
    rw [haGo_cons, List.length_cons, List.length_cons, ih]

lemma haGo_fields (prev : Bar) (l : List Bar) :
    ∀ i, i < l.length →
      ((haGo prev l).getD i default).time = (l.getD i default).time
      ∧ ((haGo prev l).getD i default).close =
        ((l.getD i default).openP + (l.getD i default).high + (l.getD i default).low +
          (l.getD i default).close) / 4
      ∧ ((haGo prev l).getD i default).high =
        max (l.getD i default).high
          (max ((haGo prev l).getD i default).openP
            ((haGo prev l).getD i default).close)
      ∧ ((haGo prev l).getD i default).low =
        min (l.getD i default).low
          (min ((haGo prev l).getD i default).openP
            ((haGo prev l).getD i default).close) := by
  induction l generalizing prev with
  | nil =>
    intro i hi
    simp at hi
  | cons b t ih =>
    intro i hi
    cases i with
    | zero => exact ⟨rfl, rfl, rfl, rfl⟩
    | succ j =>
      rw [haGo_cons]
      simp only [List.getD_cons_succ]
      exact ih (haNext ((prev.openP + prev.close) / 2) b) j (by simpa using hi)

lemma haGo_open0 (prev b : Bar) (t : List Bar) :
    ((haGo prev (b :: t)).getD 0 default).openP = (prev.openP + prev.close) / 2 := rfl

lemma haGo_open_succ (prev : Bar) (l : List Bar) :
    ∀ i, i + 1 < l.length →
      ((haGo prev l).getD (i + 1) default).openP =
        (((haGo prev l).getD i default).openP +
          ((haGo prev l).getD i default).close) / 2 := by
  induction l generalizing prev with
  | nil =>
    intro i hi
    simp at hi
  | cons b t ih =>
    intro i hi
    cases i with
    | zero =>
      have ht : t ≠ [] := by
        intro hnil
        rw [hnil] at hi
        simp at hi
      obtain ⟨b2, t2, rfl⟩ := List.exists_cons_of_ne_nil ht
      rw [haGo_cons]
      simp only [List.getD_cons_succ, List.getD_cons_zero]
      exact haGo_open0 _ b2 t2
    | succ j =>
      rw [haGo_cons]
      simp only [List.getD_cons_succ]
      exact ih (haNext ((prev.openP + prev.close) / 2) b) j (by simpa using hi)

/-- Claim C9: the Heikin-Ashi transform (App.js lines 56-72).  For every
bar sequence the output has the same length and timestamps, with
`close'[i] = (O+H+L+C)/4`, `open'[0] = (O[0]+C[0])/2`,
`open'[i+1] = (open'[i]+close'[i])/2`, `high'[i] = max(H[i], open'[i],
close'[i])` and `low'[i] = min(L[i], open'[i], close'[i])`; for the single
bar `{O=10, H=12, L=9, C=11}` the transformed close and synthetic open are
both 10.5. -/
theorem C9_heikin_ashi (bars : List Bar) :
    (toHeikinAshi bars).length = bars.length
    ∧ (∀ i, i < bars.length →
        ((toHeikinAshi bars).getD i default).time = (bars.getD i default).time
        ∧ ((toHeikinAshi bars).getD i default).close =
          ((bars.getD i default).openP + (bars.getD i default).high +
            (bars.getD i default).low + (bars.getD i default).close) / 4
        ∧ ((toHeikinAshi bars).getD i default).high =
          max (bars.getD i default).high
            (max ((toHeikinAshi bars).getD i default).openP
              ((toHeikinAshi bars).getD i default).close)
        ∧ ((toHeikinAshi bars).getD i default).low =
          min (bars.getD i default).low
            (min ((toHeikinAshi bars).getD i default).openP
              ((toHeikinAshi bars).getD i default).close))
    ∧ (bars ≠ [] →
        ((toHeikinAshi bars).getD 0 default).openP =
          ((bars.getD 0 default).openP + (bars.getD 0 default).close) / 2)
    ∧ (∀ i, i + 1 < bars.length →
        ((toHeikinAshi bars).getD (i + 1) default).openP =
          (((toHeikinAshi bars).getD i default).openP +
            ((toHeikinAshi bars).getD i default).close) / 2)
    ∧ toHeikinAshi [⟨0, 10, 12, 9, 11, 0⟩] = [⟨0, 21/2, 12, 9, 21/2, 0⟩] := by
  cases bars with
  | nil =>
    refine ⟨rfl, ?_, ?_, ?_, by with_unfolding_all rfl⟩
    · intro i hi
      simp at hi
    · intro h
      exact absurd rfl h
    · intro i hi
      simp at hi
  | cons b t =>
    refine ⟨?_, ?_, fun _ => rfl, ?_, by with_unfolding_all rfl⟩
    · rw [toHeikinAshi_cons, List.length_cons, List.length_cons,
        haGo_length]
    · intro i hi
      cases i with
      | zero => exact ⟨rfl, rfl, rfl, rfl⟩
      | succ j =>
        rw [toHeikinAshi_cons]
        simp only [List.getD_cons_succ]
        exact haGo_fields (haNext ((b.openP + b.close) / 2) b) t j (by simpa using hi)
    · intro i hi
      cases i with
      | zero =>
        have ht : t ≠ [] := by
          intro hnil
          rw [hnil] at hi
          simp at hi
        obtain ⟨b2, t2, rfl⟩ := List.exists_cons_of_ne_nil ht
        rw [toHeikinAshi_cons]
        simp only [List.getD_cons_succ, List.getD_cons_zero]
        exact haGo_open0 _ b2 t2
      | succ j =>
        rw [toHeikinAshi_cons]
        simp only [List.getD_cons_succ]
        exact haGo_open_succ (haNext ((b.openP + b.close) / 2) b) t j (by simpa using hi)

/-- Witness for C9: the openP-chain conjunct applied at the concrete
two-bar sequence — the second synthetic open is the midpoint of the first
Heikin-Ashi bar's open and close. -/
theorem C9_heikin_ashi_witness :
    ((toHeikinAshi [⟨0, 10, 12, 9, 11, 0⟩, ⟨1, 11, 13, 10, 12, 0⟩]).getD 1
        default).openP =
      (((toHeikinAshi [⟨0, 10, 12, 9, 11, 0⟩, ⟨1, 11, 13, 10, 12, 0⟩]).getD 0
          default).openP +
        ((toHeikinAshi [⟨0, 10, 12, 9, 11, 0⟩, ⟨1, 11, 13, 10, 12, 0⟩]).getD 0
          default).close) / 2 :=
  (C9_heikin_ashi [⟨0, 10, 12, 9, 11, 0⟩, ⟨1, 11, 13, 10, 12, 0⟩]).2.2.2.1 0
    (by decide)

lemma effW_pos (window : ℚ) : 1 ≤ effW window := by
  have h := le_max_left (1 : ℤ) ⌊window⌋
  unfold effW
  omega

lemma preSum_zero (arr : List TV) (w : ℕ) : preSum arr w 0 = 0 := by
  simp [preSum]

lemma recentSum_eq_preSum (arr : List TV) (w i : ℕ) :
    recentSum arr w i = preSum arr w (i + 1) := rfl

lemma preSum_succ (arr : List TV) (w i : ℕ) :
    (if w ≤ i then
        preSum arr w i + (arr.getD i default).value - (arr.getD (i - w) default).value
      else preSum arr w i + (arr.getD i default).value) = preSum arr w (i + 1) := by
  have htop : ∑ j in Finset.Ico (i - w) (i + 1), valAt arr j =
      preSum arr w i + valAt arr i := by
    unfold preSum
    rw [Finset.sum_Ico_succ_top (Nat.sub_le i w)]
  by_cases hwi : w ≤ i
  · rw [if_pos hwi]
    have hbot : ∑ j in Finset.Ico (i - w) (i + 1), valAt arr j =
        valAt arr (i - w) + ∑ j in Finset.Ico (i - w + 1) (i + 1), valAt arr j := by
      exact Finset.sum_eq_sum_Ico_succ_bot (by omega) _
    have hidx : i + 1 - w = i - w + 1 := by omega
    unfold preSum
    rw [hidx]
    have : ∑ j in Finset.Ico (i - w + 1) (i + 1), valAt arr j =
        preSum arr w i + valAt arr i - valAt arr (i - w) := by
      rw [← htop] at *
      rw [hbot]
      ring
    rw [this]
    rfl
  · rw [if_neg hwi]
    have h0 : i - w = 0 := by omega
    have h1 : i + 1 - w = 0 := by omega
    unfold preSum
    rw [h1, ← h0, htop]
    rfl

lemma smaStep_eq (arr : List TV) (w i : ℕ) (sum : ℚ) (h : i < arr.length) :
    smaStep arr w i sum =
      (if w - 1 ≤ i then
        (⟨(arr.getD i default).time,
          (if w ≤ i then sum + (arr.getD i default).value -
              (arr.getD (i - w) default).value
            else sum + (arr.getD i default).value) / (w : ℚ)⟩ : TV)
       else arr.getD i default) ::
      smaStep arr w (i + 1)
        (if w ≤ i then sum + (arr.getD i default).value -
            (arr.getD (i - w) default).value
          else sum + (arr.getD i default).value) := by
  rw [smaStep]
  rw [dif_pos h]

lemma smaStep_stop (arr : List TV) (w i : ℕ) (sum : ℚ) (h : ¬ i < arr.length) :
    smaStep arr w i sum = [] := by
  rw [smaStep]
  rw [dif_neg h]

lemma smaStep_invariant (arr : List TV) (w : ℕ) :
    ∀ n i, arr.length - i = n →
      (smaStep arr w i (preSum arr w i)).length = arr.length - i
      ∧ ∀ j, i + j < arr.length →
        (smaStep arr w i (preSum arr w i)).getD j default =
          (if w - 1 ≤ i + j then
            (⟨(arr.getD (i + j) default).time,
              recentSum arr w (i + j) / (w : ℚ)⟩ : TV)
           else arr.getD (i + j) default) := by
  intro n
  induction n with
  | zero =>
    intro i hi
    have hnil : smaStep arr w i (preSum arr w i) = [] :=
      smaStep_stop arr w i _ (by omega)
    rw [hnil]
    exact ⟨by simp; omega, fun j hj => absurd hj (by omega)⟩
  | succ n ih =>
    intro i hi
    have hlt : i < arr.length := by omega
    have heq := smaStep_eq arr w i (preSum arr w i) hlt
    rw [preSum_succ arr w i] at heq
    obtain ⟨ihlen, ihget⟩ := ih (i + 1) (by omega)
    constructor
    · rw [heq, List.length_cons, ihlen]
      omega
    · intro j hj
      cases j with
      | zero =>
        rw [heq]
        simp only [List.getD_cons_zero, Nat.add_zero]
        rfl
      | succ jj =>
        rw [heq]
        simp only [List.getD_cons_succ]
        have hidx : i + 1 + jj = i + (jj + 1) := by omega
        have := ihget jj (by omega)
        rw [hidx] at this
        exact this

lemma recentSum_one (arr : List TV) (j : ℕ) : recentSum arr 1 j = valAt arr j := by
  unfold recentSum
  have hidx : j + 1 - 1 = j := by omega
  rw [hidx, Finset.sum_Ico_succ_top le_rfl, Finset.Ico_self, Finset.sum_empty,
    zero_add]

/-- Claim C10: sma warm-up behaviour (App.js lines 83-95).  For every
series and window, `sma` returns a series of the same length with the same
timestamps; with effective window `w = max(1, floor(window)) <= 1` the
output equals the input; at every index `j >= w-1` the output is the
arithmetic mean of the `w` most recent input values; at every index
`j < w-1` the output is the raw input point passed through unchanged. -/
theorem C10_sma_warmup (arr : List TV) (window : ℚ) :
    (sma arr window).length = arr.length
    ∧ (∀ j, j < arr.length →
        ((sma arr window).getD j default).time = (arr.getD j default).time)
    ∧ (effW window ≤ 1 → sma arr window = arr)
    ∧ (∀ j, j < arr.length → effW window - 1 ≤ j →
        ((sma arr window).getD j default).value =
          recentSum arr (effW window) j / ((effW window : ℕ) : ℚ))
    ∧ (∀ j, j < arr.length → j < effW window - 1 →
        (sma arr window).getD j default = arr.getD j default) := by
  by_cases hw1 : effW window ≤ 1
  · have hweq : effW window = 1 := le_antisymm hw1 (effW_pos window)
    have hid : sma arr window = arr := by
      unfold sma
      rw [if_pos hw1]
    refine ⟨by rw [hid], fun j hj => by rw [hid], fun _ => hid, ?_, ?_⟩
    · intro j hj hge
      rw [hid, hweq, recentSum_one]
      rw [Nat.cast_one, div_one]
      rfl
    · intro j hj hlt
      rw [hweq] at hlt
      omega
  · have hsma : sma arr window = smaStep arr (effW window) 0 0 := by
      unfold sma
      rw [if_neg hw1]
    have h0 : (0 : ℚ) = preSum arr (effW window) 0 := (preSum_zero arr _).symm
    obtain ⟨hlen, hget⟩ :=
      smaStep_invariant arr (effW window) arr.length 0 (by omega)
    rw [← h0] at hlen hget
    refine ⟨?_, ?_, fun h => absurd h hw1, ?_, ?_⟩
    · rw [hsma, hlen]
      omega
    · intro j hj
      have := hget j (by omega)
      rw [Nat.zero_add] at this
      rw [hsma, this]
      by_cases hc : effW window - 1 ≤ j
      · rw [if_pos hc]
      · rw [if_neg hc]
    · intro j hj hge
      have := hget j (by omega)
      rw [Nat.zero_add] at this
      rw [hsma, this, if_pos hge]
    · intro j hj hlt
      have := hget j (by omega)
      rw [Nat.zero_add] at this
      rw [hsma, this, if_neg (by omega)]

/-- Witness for C10: the mean conjunct applied at index 2 of a concrete
4-point series with window 3 — the output value is the mean of the three
most recent inputs. -/
theorem C10_sma_warmup_witness :
    ((sma [⟨0, 1⟩, ⟨1, 2⟩, ⟨2, 3⟩, ⟨3, 4⟩] 3).getD 2 default).value =
      recentSum [⟨0, 1⟩, ⟨1, 2⟩, ⟨2, 3⟩, ⟨3, 4⟩] (effW 3) 2 / ((effW 3 : ℕ) : ℚ) :=
  (C10_sma_warmup [⟨0, 1⟩, ⟨1, 2⟩, ⟨2, 3⟩, ⟨3, 4⟩] 3).2.2.2.1 2 (by decide)
    (by with_unfolding_all decide)

end FibDash
